import Mathlib

/-!
# Verification of generate-setup-cfg

A shallow embedding of `generate-setup-cfg.py`, a script that translates
egg-info metadata into a `setup.cfg` file, together with proofs about the
field translators, the requirements parsing, the config merge, the section
ordering and the error handling.

The embedding models Python strings as Lean `String` (a list of characters),
`os.linesep` as `"\n"` (the script targets a POSIX environment), Python's
`str.split`/`str.join` as character-list splitting and intercalation, and
`ConfigParser` documents as ordered association lists of sections, each an
ordered association list of keys.  `ConfigParser` normalizes option names
with `optionxform`, which is `str.lower` by default; the model applies that
lowering wherever the script stores an option (`conf.set`) or reads option
names back from an auxiliary config file (`entry_points.txt`).
-/

namespace GenerateSetupCfg

/-- `os.linesep` on the POSIX systems the script targets. -/
def linesep : String := "\n"

/-- Python's `sep.join(parts)`: the parts intercalated with the separator. -/
def pyJoin (sep : String) (parts : List String) : String :=
  String.mk (List.intercalate sep.data (parts.map String.data))

/-- Python's `s.split(sep)` for a one-character separator: split on every
occurrence, keeping empty pieces (`"".split(",") == [""]`). -/
def pySplitChar (sep : Char) (s : String) : List String :=
  (s.data.splitOn sep).map String.mk

/-- Python's `str.lower` (the script only ever lowers ASCII names). -/
def pyLower (s : String) : String := String.mk (s.data.map Char.toLower)

/-- The characters Python's `str.strip` removes. -/
def isPyWhitespace (c : Char) : Bool :=
  c = ' ' || c = '\t' || c = '\n' || c = '\r' || c = '\x0b' || c = '\x0c'

/-- Python's `str.strip`: drop whitespace from both ends. -/
def pyStrip (s : String) : String :=
  String.mk (((s.data.dropWhile isPyWhitespace).reverse.dropWhile isPyWhitespace).reverse)

/-- Python's `s.startswith(pre)`. -/
def pyStartsWith (s pre : String) : Bool :=
  pre.data.isPrefixOf s.data

/-- Python's `<` on strings: lexicographic comparison of the character
sequences by code point. -/
def pyLt (a b : String) : Prop := a.data < b.data

/-- Python's `<=` on strings. -/
def pyLe (a b : String) : Prop := a.data ≤ b.data

instance (a b : String) : Decidable (pyLt a b) :=
  inferInstanceAs (Decidable (a.data < b.data))

instance (a b : String) : Decidable (pyLe a b) :=
  inferInstanceAs (Decidable (a.data ≤ b.data))

/-- Python's `str(bool)`. -/
def pyStrBool (b : Bool) : String := if b then "True" else "False"

/-- A single-quote character, used by Python's `repr` of strings. -/
def squote : Char := Char.ofNat 39

/-- Python's `str` of a list of strings, as in `"{0}".format(egg_info_dir)`. -/
def pyStrOfStrList (l : List String) : String :=
  "[" ++ pyJoin ", " (l.map fun s => String.mk (squote :: s.data ++ [squote])) ++ "]"

/-- A raw metadata value as read from the egg-info metadata: a scalar string,
a list of strings, or absent (`None`). -/
inductive RawVal
  | vnone
  | vstr (s : String)
  | vlist (l : List String)
deriving DecidableEq

/-- Python's `str(value)` for the values a translator can receive. -/
def pyStr : RawVal → String
  | RawVal.vnone => "None"
  | RawVal.vstr s => s
  | RawVal.vlist l => pyStrOfStrList l

/-- `long_description_handler.serialize`: ignores its input entirely and
returns `file: README.rst` exactly when `README.rst` exists on disk. -/
def long_description_handler_serialize (readmeExists : Bool) (_value : RawVal) :
    Option String :=
  if readmeExists then some "file: README.rst" else none

/-- `str_handler.serialize`: `None` maps to `None`, anything else to its
string form. -/
def str_handler_serialize : RawVal → Option String
  | RawVal.vnone => none
  | v => some (pyStr v)

/-- `list_comma_handler.serialize`: a string input is first split on `","`;
`None`, an empty list and the sentinel `["UNKNOWN"]` map to `None`; otherwise
the elements are joined with `", "`, or, when `newline` is set, prefixed and
joined with `os.linesep`. -/
def list_comma_handler_serialize (newline : Bool) (values : RawVal) :
    Option String :=
  let valuesL : Option (List String) :=
    match values with
    | RawVal.vstr s => some (pySplitChar ',' s)
    | RawVal.vnone => none
    | RawVal.vlist l => some l
  match valuesL with
  | none => none
  | some l =>
    if l = [] ∨ l = ["UNKNOWN"] then none
    else if newline then some (linesep ++ pyJoin linesep l)
    else some (pyJoin ", " l)

/-- The three translator classes of the script, each carrying the target
`setup.cfg` key it writes. -/
inductive Handler
  | strH (cfgName : String)
  | listH (cfgName : String) (newline : Bool)
  | longDescH (cfgName : String)
deriving DecidableEq

/-- The `setup_cfg_name` attribute of a handler. -/
def Handler.cfgName : Handler → String
  | Handler.strH n => n
  | Handler.listH n _ => n
  | Handler.longDescH n => n

def Handler.isStr : Handler → Bool
  | Handler.strH _ => true
  | _ => false

def Handler.isList : Handler → Bool
  | Handler.listH _ _ => true
  | _ => false

def Handler.isLong : Handler → Bool
  | Handler.longDescH _ => true
  | _ => false

/-- `handler.serialize(value)` for each translator class. -/
def Handler.run (readmeExists : Bool) : Handler → RawVal → Option String
  | Handler.strH _ => str_handler_serialize
  | Handler.listH _ nl => list_comma_handler_serialize nl
  | Handler.longDescH _ => long_description_handler_serialize readmeExists

/-- The static field table `METADATA_KEYS`, in source order: metadata field
name paired with the handler that serializes it. -/
def METADATA_KEYS : List (String × Handler) :=
  [("name", Handler.strH "name"),
   ("version", Handler.strH "version"),
   ("home_page", Handler.strH "url"),
   ("download_url", Handler.strH "download_url"),
   ("author", Handler.strH "author"),
   ("author_email", Handler.strH "author_email"),
   ("maintainer", Handler.strH "maintainer"),
   ("maintainer_email", Handler.strH "maintainer_email"),
   ("classifiers", Handler.listH "classifiers" true),
   ("license", Handler.strH "license"),
   ("summary", Handler.strH "description"),
   ("description", Handler.longDescH "long_description"),
   ("keywords", Handler.listH "keywords" false),
   ("platforms", Handler.listH "platforms" false),
   ("provides", Handler.listH "provides" false),
   ("requires", Handler.listH "requires" false),
   ("obsoletes", Handler.listH "obsoletes" false)]

/-! ## The in-memory config document

A `ConfigDoc` models a `ConfigParser` state: sections in insertion order,
each an ordered association list of option keys.  `conf.set` replaces an
existing key in place and appends a fresh key at the end of its section;
`conf.add_section` appends a fresh section. -/

/-- The options of one section, in insertion order. -/
abbrev Items := List (String × String)

/-- A config document: sections in insertion order. -/
abbrev ConfigDoc := List (String × Items)

/-- Read a key from an item list (first occurrence). -/
def getKV (k : String) (items : Items) : Option String :=
  (items.find? fun kv => kv.1 = k).map fun kv => kv.2

/-- Write a key in an item list: replace the first occurrence in place, or
append at the end (the behavior of a Python dict). -/
def setKV (k v : String) : Items → Items
  | [] => [(k, v)]
  | kv :: rest => if kv.1 = k then (k, v) :: rest else kv :: setKV k v rest

/-- The items of a section (first section with that name). -/
def getSection (s : String) (d : ConfigDoc) : Option Items :=
  (d.find? fun sec => sec.1 = s).map fun sec => sec.2

/-- `conf.has_section`. -/
def hasSection (s : String) (d : ConfigDoc) : Bool :=
  d.any fun sec => sec.1 = s

/-- The value stored at section `s`, key `k`. -/
def lookup2 (d : ConfigDoc) (s k : String) : Option String :=
  (getSection s d).bind (getKV k)

/-- `conf.set(s, k, v)` after option-name normalization: update the matching
section's items.  (On a missing section `ConfigParser` raises; the script
only calls `set` on sections it has ensured exist, so the missing-section
case never runs and is modelled as a no-op.) -/
def configSet (s k v : String) (d : ConfigDoc) : ConfigDoc :=
  d.map fun sec => if sec.1 = s then (sec.1, setKV k v sec.2) else sec

/-- `if not conf.has_section(s): conf.add_section(s)`. -/
def addSectionIfAbsent (s : String) (d : ConfigDoc) : ConfigDoc :=
  if hasSection s d then d else d ++ [(s, [])]

/-- One write of the merge: ensure a section exists, or set an option.
`Op.set` carries the option key already normalized (`conf.set` applies
`optionxform`, i.e. `str.lower`, before storing). -/
inductive Op
  | add (s : String)
  | set (s k v : String)
deriving DecidableEq

/-- `conf.set`, with the option-name lowering `ConfigParser` applies. -/
def opSet (s k v : String) : Op := Op.set s (pyLower k) v

def applyOp (d : ConfigDoc) : Op → ConfigDoc
  | Op.add s => addSectionIfAbsent s d
  | Op.set s k v => configSet s k v d

def applyOps (ops : List Op) (d : ConfigDoc) : ConfigDoc :=
  ops.foldl applyOp d

/-! ## Requirements parsing (`requires.txt`) -/

/-- Append one requirement to its group, defaultdict-style: extend the
group in place if present, else insert the new group at the end. -/
def appendGroup (g r : String) : List (String × List String) → List (String × List String)
  | [] => [(g, [r])]
  | p :: rest => if p.1 = g then (p.1, p.2 ++ [r]) :: rest else p :: appendGroup g r rest

/-- Python's `s[1:-1]`: drop the first and the last character. -/
def sliceInner (s : String) : String :=
  String.mk ((s.data.drop 1).dropLast)

/-- The line loop of the requirements parser: a line starting with `[`
switches the current group to the stripped line without its brackets; any
other line that is non-blank after stripping is appended (stripped) to the
current group. -/
def parseRequiresAux (sec : String) (acc : List (String × List String)) :
    List String → List (String × List String)
  | [] => acc
  | req :: rest =>
    if pyStartsWith req "[" then
      parseRequiresAux (sliceInner (pyStrip req)) acc rest
    else if pyStrip req = "" then
      parseRequiresAux sec acc rest
    else
      parseRequiresAux sec (appendGroup sec (pyStrip req) acc) rest

/-- Parse `requires.txt`: the current group starts as `"default"`. -/
def parseRequires (lines : List String) : List (String × List String) :=
  parseRequiresAux "default" [] lines

/-- `requires['default']` on the defaultdict: its value, together with the
dict after the access (the access inserts an empty `"default"` group when it
is missing, which counts toward `len(requires)`). -/
def getDefaultGroup (reqs : List (String × List String)) :
    List String × List (String × List String) :=
  match reqs.find? fun g => g.1 = "default" with
  | some g => (g.2, reqs)
  | none => ([], reqs ++ [("default", [])])

/-- `requires[g]` for a group known to be present. -/
def groupReqs (g : String) (reqs : List (String × List String)) : List String :=
  ((reqs.find? fun p => p.1 = g).map fun p => p.2).getD []

/-- The writes performed for `requires.txt`: `install_requires` is always
set to the newline-prefixed, newline-joined default group; when more than
one group exists, the extras section is ensured and each non-default group,
in sorted order, is set to its requirements joined by `"; "`. -/
def requiresOps (lines : List String) : List Op :=
  let dflt := getDefaultGroup (parseRequires lines)
  opSet "options" "install_requires" (linesep ++ pyJoin linesep dflt.1) ::
    (if 1 < dflt.2.length then
      Op.add "options.extras_require" ::
        (List.insertionSort pyLe (dflt.2.map Prod.fst)).filterMap
          fun g =>
            if g = "default" then none
            else some (opSet "options.extras_require" g (pyJoin "; " (groupReqs g dflt.2)))
    else [])

/-! ## The run environment and the merge -/

/-- Everything the run reads from the filesystem and the metadata object:
whether `README.rst` exists, the metadata attributes (`getattr(dist, key)`),
whether the `not-zip-safe` marker exists, `dist.requires_python`, the parsed
`entry_points.txt` (groups in file order, items in file order, names as
written) when that file exists, and the lines of `requires.txt` when that
file exists. -/
structure Env where
  readmeExists : Bool
  dist : String → RawVal
  notZipSafe : Bool
  requiresPython : Option String
  entryPoints : Option (List (String × List (String × String)))
  requiresLines : Option (List String)

/-- The metadata writes: each field of `METADATA_KEYS`, in table order, whose
translation is non-absent is set in the `metadata` section. -/
def metadataOps (env : Env) : List Op :=
  METADATA_KEYS.filterMap fun kh =>
    match Handler.run env.readmeExists kh.2 (env.dist kh.1) with
    | some v => some (opSet "metadata" kh.2.cfgName v)
    | none => none

/-- The unconditional `options` writes, plus `python_requires` when the
metadata exposes a Python-version constraint. -/
def optionsOps (env : Env) : List Op :=
  [opSet "options" "zip_safe" (pyStrBool (!env.notZipSafe)),
   opSet "options" "packages" "find:",
   opSet "options" "include_package_data" (pyStrBool true)] ++
    (match env.requiresPython with
     | some rp => [opSet "options" "python_requires" rp]
     | none => [])

/-- The `entry_points.txt` writes: ensure `options.entry_points`, then one
write per group, the value being the newline-prefixed block of
`name = value` lines in source order.  `ConfigParser` lowercases option
names when reading the auxiliary file, hence `pyLower` on the item names. -/
def entryOps (env : Env) : List Op :=
  match env.entryPoints with
  | none => []
  | some groups =>
    Op.add "options.entry_points" ::
      groups.map fun g =>
        opSet "options.entry_points" g.1
          (linesep ++ pyJoin linesep (g.2.map fun it => pyLower it.1 ++ " = " ++ it.2))

/-- All the writes of one run, in program order. -/
def opsOf (env : Env) : List Op :=
  [Op.add "metadata", Op.add "options"] ++
    (metadataOps env ++
      (optionsOps env ++
        (entryOps env ++
          (match env.requiresLines with
           | some lines => requiresOps lines
           | none => []))))

/-! ## Section ordering and the full run -/

/-- The `sections_key` sort key: `metadata` first, `options` second, other
`options`-prefixed sections third (tie-broken by the name embedded in the
key), everything else last. -/
def sections_key (sec : String) : String :=
  if sec = "metadata" then "a"
  else if sec = "options" then "b"
  else if pyStartsWith sec "options" then "c" ++ sec
  else "d"

/-- The comparison `sorted(conf._sections, key=sections_key)` sorts by. -/
def secLe (a b : String × Items) : Prop :=
  pyLe (sections_key a.1) (sections_key b.1)

instance : DecidableRel secLe := fun a b =>
  inferInstanceAs (Decidable (pyLe (sections_key a.1) (sections_key b.1)))

instance : DecidableRel pyLe := fun a b =>
  inferInstanceAs (Decidable (pyLe a b))

instance : IsTotal (String × Items) secLe :=
  ⟨fun a b => le_total (sections_key a.1).data (sections_key b.1).data⟩

instance : IsTrans (String × Items) secLe :=
  ⟨fun _ _ _ h₁ h₂ => le_trans h₁ h₂⟩

/-- Reorder the sections by `sections_key`; a stable sort, like Python's
`sorted`. -/
def sortSections (d : ConfigDoc) : ConfigDoc :=
  List.insertionSort secLe d

/-- One full run of the merge on an in-memory starting document: apply every
write in program order, then reorder the sections for serialization. -/
def mainRun (env : Env) (d : ConfigDoc) : ConfigDoc :=
  sortSections (applyOps (opsOf env) d)

/-! ## The egg-info directory check -/

/-- The directory-count check: exactly one `*.egg-info` candidate is
required; zero or several produce the diagnostic and a non-zero exit,
modelled as `Except.error`. -/
def eggInfoCheck (dirs : List String) : Except String String :=
  if dirs.length ≠ 1 then
    Except.error ("Expected only one .egg-info directory, got " ++ pyStrOfStrList dirs)
  else
    Except.ok (dirs.headD "")

/-! ## Further definitions used by the statements and proofs -/

/-- All ways to insert `x` into a list. -/
def insertEverywhere (x : α) : List α → List (List α)
  | [] => [[x]]
  | y :: ys => (x :: y :: ys) :: (insertEverywhere x ys).map fun zs => y :: zs

/-- Every permutation of a list, by repeated insertion (structurally
recursive, so concrete instances evaluate). -/
def allPerms : List α → List (List α)
  | [] => [[]]
  | x :: xs => (allPerms xs).flatMap (insertEverywhere x)

/-- Strip the leading line separator from a serialized multi-line value. -/
def dropLeadingSep (s : String) : String :=
  String.mk (s.data.drop 1)

/-- Does this write target exactly section `s`, key `k`? -/
def touchesB (s k : String) : Op → Bool
  | Op.add _ => false
  | Op.set s2 k2 _ => s2 == s && k2 == k

/-- Does this operation name section `s` at all? -/
def namesSection (s : String) : Op → Bool
  | Op.add s2 => s2 == s
  | Op.set s2 _ _ => s2 == s

/-- The sections guaranteed present after a list of operations ran, starting
from a set of already-guaranteed sections. -/
def seenAfter (seen : List String) : List Op → List String
  | [] => seen
  | Op.add s :: rest => seenAfter (s :: seen) rest
  | Op.set _ _ _ :: rest => seenAfter seen rest

/-- Well-formedness of a write list: every `set` targets a section that was
ensured (by an earlier `add` or from `seen`) before it runs.  The script
always adds a section before setting options in it, so its write lists are
covered. -/
def covered (seen : List String) : List Op → Prop
  | [] => True
  | Op.add s :: rest => covered (s :: seen) rest
  | Op.set s _ _ :: rest => s ∈ seen ∧ covered seen rest

/-- An environment in which every optional input is absent. -/
def baseEnv : Env :=
  { readmeExists := false, dist := fun _ => RawVal.vnone, notZipSafe := false,
    requiresPython := none, entryPoints := none, requiresLines := none }

/-- The worked requirements example: `requires.txt` holds the lines
`a\n`, `[extra1]\n`, `b\n`. -/
def exampleReqEnv : Env :=
  { baseEnv with requiresLines := some ["a\n", "[extra1]\n", "b\n"] }

/-- A requirements file with groups `default`, `zeta`, `alpha` (in that file
order). -/
def sortedExtrasEnv : Env :=
  { baseEnv with requiresLines := some ["a\n", "[zeta]\n", "z1\n", "[alpha]\n", "al1\n"] }

/-- An `entry_points.txt` with one group `Grp` holding one item
`Name = v` (mixed case to expose the option-name normalization). -/
def entryEnv : Env :=
  { baseEnv with entryPoints := some [("Grp", [("Name", "v")])] }

/-! ## Helper lemmas about the section ordering key -/

theorem sections_key_metadata : sections_key "metadata" = "a" := by decide

theorem sections_key_options : sections_key "options" = "b" := by decide

theorem sections_key_eq_c (s : String) (h : pyStartsWith s "options" = true)
    (h2 : s ≠ "options") : sections_key s = "c" ++ s := by
  have h1 : s ≠ "metadata" := by
    intro he
    subst he
    exact absurd h (by decide)
  simp [sections_key, h1, h2, h]

theorem sections_key_eq_d (s : String) (h1 : s ≠ "metadata") (h2 : s ≠ "options")
    (h3 : pyStartsWith s "options" = false) : sections_key s = "d" := by
  simp [sections_key, h1, h2, h3]

/-- The key of a last-bucket section is maximal: `"d" ≤ key` forces `key = "d"`. -/
theorem d_le_sections_key_iff (y : String) :
    pyLe "d" (sections_key y) ↔ sections_key y = "d" := by
  by_cases h1 : y = "metadata"
  · subst h1; decide
  by_cases h2 : y = "options"
  · subst h2; decide
  by_cases h3 : pyStartsWith y "options" = true
  · rw [sections_key_eq_c y h3 h2]
    constructor
    · intro hle
      have hlt : ("c" ++ y).data < "d".data :=
        List.Lex.rel (show ('c' : Char) < 'd' by decide)
      exact absurd hle (not_le.mpr hlt)
    · intro he
      have hd : ("c" ++ y).data = "d".data := congrArg String.data he
      simp at hd
  · rw [sections_key_eq_d y h1 h2 (by simpa using h3)]
    exact iff_of_true (by decide) rfl

/-! ## C5: section ordering -/

theorem mem_insertEverywhere (x : α) :
    ∀ l₁ l₂ : List α, (l₁ ++ x :: l₂) ∈ insertEverywhere x (l₁ ++ l₂) := by
  intro l₁
  induction l₁ with
  | nil => intro l₂; cases l₂ <;> exact List.mem_cons_self _ _
  | cons y ys ih =>
    intro l₂
    exact List.mem_cons_of_mem _ (List.mem_map_of_mem _ (ih l₂))

/-- `allPerms` is complete: it contains every permutation. -/
theorem mem_allPerms_of_perm : ∀ {l d : List α}, d.Perm l → d ∈ allPerms l := by
  intro l
  induction l with
  | nil =>
    intro d hd
    rw [List.perm_nil.mp hd]
    exact List.mem_singleton_self _
  | cons x xs ih =>
    intro d hd
    have hx : x ∈ d := hd.mem_iff.mpr (List.mem_cons_self _ _)
    obtain ⟨d₁, d₂, rfl⟩ := List.append_of_mem hx
    have hrest : (d₁ ++ d₂).Perm xs :=
      (List.perm_cons x).mp (List.perm_middle.symm.trans hd)
    exact List.mem_flatMap.mpr ⟨d₁ ++ d₂, ih hrest, mem_insertEverywhere x d₁ d₂⟩

/-- C5: the serialized section order follows `sections_key`: `metadata` sorts
strictly first, `options` strictly second, other `options`-prefixed sections
third with ties among them broken lexicographically by the section name, and
every other section last; on the concrete set
`{zzz, options.entry_points, metadata, options}` the output order is
`metadata, options, options.entry_points, zzz` for every insertion order. -/
theorem c5_section_ordering :
    (∀ s : String, s ≠ "metadata" → pyLt (sections_key "metadata") (sections_key s))
    ∧ (∀ s : String, s ≠ "metadata" → s ≠ "options" →
        pyLt (sections_key "options") (sections_key s))
    ∧ (∀ s t : String, pyStartsWith s "options" = true → s ≠ "options" →
        t ≠ "metadata" → t ≠ "options" → pyStartsWith t "options" = false →
        pyLt (sections_key s) (sections_key t))
    ∧ (∀ s t : String, pyStartsWith s "options" = true → s ≠ "options" →
        pyStartsWith t "options" = true → t ≠ "options" →
        (pyLt (sections_key s) (sections_key t) ↔ pyLt s t))
    ∧ (∀ d : ConfigDoc,
        d.Perm [("zzz", []), ("options.entry_points", []), ("metadata", []), ("options", [])] →
        (sortSections d).map Prod.fst
          = ["metadata", "options", "options.entry_points", "zzz"]) := by
  have hperm : ∀ d ∈ allPerms
      ([("zzz", []), ("options.entry_points", []), ("metadata", []), ("options", [])] : ConfigDoc),
      (sortSections d).map Prod.fst
        = ["metadata", "options", "options.entry_points", "zzz"] := by decide
  refine ⟨?_, ?_, ?_, ?_, fun d hd => hperm d (mem_allPerms_of_perm hd)⟩
  · intro s h1
    rw [sections_key_metadata]
    by_cases h2 : s = "options"
    · subst h2; decide
    by_cases h3 : pyStartsWith s "options" = true
    · rw [sections_key_eq_c s h3 h2]
      exact List.Lex.rel (by decide)
    · rw [sections_key_eq_d s h1 h2 (by simpa using h3)]
      decide
  · intro s h1 h2
    rw [sections_key_options]
    by_cases h3 : pyStartsWith s "options" = true
    · rw [sections_key_eq_c s h3 h2]
      exact List.Lex.rel (by decide)
    · rw [sections_key_eq_d s h1 h2 (by simpa using h3)]
      decide
  · intro s t hs hs2 ht1 ht2 ht3
    rw [sections_key_eq_c s hs hs2, sections_key_eq_d t ht1 ht2 ht3]
    exact List.Lex.rel (by decide)
  · intro s t hs hs2 ht ht2
    rw [sections_key_eq_c s hs hs2, sections_key_eq_c t ht ht2]
    exact List.Lex.cons_iff

/-! ## C10: stability of the last bucket -/

/-- Inserting one section into a sorted tail: the last-bucket (`"d"`-key)
subsequence gains the new section at the front when it is itself last-bucket,
and is untouched otherwise. -/
theorem filter_d_orderedInsert (x : String × Items) (l : List (String × Items)) :
    (List.orderedInsert secLe x l).filter (fun sec => sections_key sec.1 = "d")
      = if sections_key x.1 = "d"
        then x :: l.filter (fun sec => sections_key sec.1 = "d")
        else l.filter (fun sec => sections_key sec.1 = "d") := by
  have hsplit : l.filter (fun sec => sections_key sec.1 = "d")
      = (l.takeWhile fun b => ¬secLe x b).filter (fun sec => sections_key sec.1 = "d")
        ++ (l.dropWhile fun b => ¬secLe x b).filter (fun sec => sections_key sec.1 = "d") := by
    rw [← List.filter_append, List.takeWhile_append_dropWhile]
  rw [List.orderedInsert_eq_take_drop, List.filter_append, List.filter_cons]
  by_cases hx : sections_key x.1 = "d"
  · have htake : (l.takeWhile fun b => ¬secLe x b).filter
        (fun sec => sections_key sec.1 = "d") = [] := by
      rw [List.filter_eq_nil_iff]
      intro b hb
      have hnb := List.mem_takeWhile_imp hb
      simp only [decide_eq_true_eq] at hnb ⊢
      intro hbd
      refine hnb ?_
      show pyLe (sections_key x.1) (sections_key b.1)
      rw [hx]
      exact (d_le_sections_key_iff b.1).mpr hbd
    rw [if_pos hx, if_pos (by simpa using hx), htake, List.nil_append, hsplit, htake,
      List.nil_append]
  · rw [if_neg hx, if_neg (by simpa using hx), hsplit]

/-- C10: all sections outside `metadata`/`options`/`options*` share the key
`"d"`, the sort keeps their relative order (their subsequence is unchanged),
and the resulting order is insertion order, not lexicographic. -/
theorem c10_last_bucket_stability :
    (∀ s : String, s ≠ "metadata" → s ≠ "options" → pyStartsWith s "options" = false →
      sections_key s = "d")
    ∧ (∀ d : ConfigDoc,
        (sortSections d).filter (fun sec => sections_key sec.1 = "d")
          = d.filter (fun sec => sections_key sec.1 = "d"))
    ∧ (sortSections [("metadata", []), ("zzz", []), ("aaa", [])]).map Prod.fst
        = ["metadata", "zzz", "aaa"]
    ∧ pyLt "aaa" "zzz"
    ∧ (["metadata", "zzz", "aaa"] : List String) ≠ ["metadata", "aaa", "zzz"] := by
  refine ⟨sections_key_eq_d, ?_, by decide, by decide, by decide⟩
  intro d
  induction d with
  | nil => rfl
  | cons x xs ih =>
    show (List.orderedInsert secLe x (sortSections xs)).filter _ = _
    rw [filter_d_orderedInsert, List.filter_cons]
    by_cases hx : sections_key x.1 = "d"
    · rw [if_pos hx, if_pos (by simpa using hx), ih]
    · rw [if_neg hx, if_neg (by simpa using hx), ih]

/-! ## C1: translators on absent and sentinel inputs -/

/-- C1 fails as stated: the string translator passes the `"UNKNOWN"` sentinel
through (it is not absent), and the long-description translator returns a
value on a `None` input whenever `README.rst` exists; both translators are in
the static field table. -/
theorem c1_counterexample :
    str_handler_serialize (RawVal.vstr "UNKNOWN") = some "UNKNOWN"
    ∧ some "UNKNOWN" ≠ (none : Option String)
    ∧ ("author", Handler.strH "author") ∈ METADATA_KEYS
    ∧ long_description_handler_serialize true RawVal.vnone = some "file: README.rst"
    ∧ some "file: README.rst" ≠ (none : Option String)
    ∧ ("description", Handler.longDescH "long_description") ∈ METADATA_KEYS := by
  decide

/-- C1 amended: for every entry of the static field table, the string and
list translators map an absent input to an absent result, the list translator
also maps the empty list and the `["UNKNOWN"]` sentinel to an absent result,
the long-description translator ignores its input and yields the `README.rst`
reference exactly when that file exists, and the string translator passes the
string `"UNKNOWN"` through unchanged. -/
theorem c1_absent_and_sentinel_amended :
    ∀ kh ∈ METADATA_KEYS, ∀ re : Bool,
      (kh.2.isLong = false → Handler.run re kh.2 RawVal.vnone = none)
      ∧ (kh.2.isLong = true →
          Handler.run re kh.2 RawVal.vnone
            = if re then some "file: README.rst" else none)
      ∧ (kh.2.isList = true →
          Handler.run re kh.2 (RawVal.vlist []) = none
          ∧ Handler.run re kh.2 (RawVal.vlist ["UNKNOWN"]) = none)
      ∧ (kh.2.isStr = true →
          Handler.run re kh.2 (RawVal.vstr "UNKNOWN") = some "UNKNOWN") := by
  intro kh hmem re
  fin_cases hmem <;> cases re <;> decide

/-- C1 witness: the amended statement applied to the `name` entry of the
table. -/
theorem c1_witness :
    Handler.run false (Handler.strH "name") RawVal.vnone = none :=
  (c1_absent_and_sentinel_amended ("name", Handler.strH "name") (by decide) false).1
    (by decide)

/-! ## C6: the egg-info directory count check -/

/-- C6: the run fails with the diagnostic exactly when the number of
`*.egg-info` candidates differs from one (zero and several are both errors),
and with exactly one candidate it proceeds with that directory. -/
theorem c6_directory_count_check :
    (∀ dirs : List String,
      (∃ msg, eggInfoCheck dirs = Except.error msg) ↔ dirs.length ≠ 1)
    ∧ (∀ d : String, eggInfoCheck [d] = Except.ok d) := by
  constructor
  · intro dirs
    constructor
    · rintro ⟨msg, hmsg⟩ hlen
      rw [eggInfoCheck, if_neg (by simpa using hlen)] at hmsg
      exact Except.noConfusion hmsg
    · intro hlen
      exact ⟨_, by rw [eggInfoCheck, if_pos hlen]⟩
  · intro d
    rfl

/-! ## C8: the comma/newline list translator -/

/-- C8 fails as stated: for an element that itself contains the line
separator, splitting the multi-line form does not recover the original
sequence. -/
theorem c8_counterexample :
    list_comma_handler_serialize true (RawVal.vlist ["a\nb"]) = some "\na\nb"
    ∧ pySplitChar '\n' (dropLeadingSep "\na\nb") = ["a", "b"]
    ∧ (["a", "b"] : List String) ≠ ["a\nb"] := by
  decide

/-- C8 amended: for every non-empty list other than `["UNKNOWN"]`, the
compact form is the `", "`-join and the multi-line form is a leading
separator followed by the separator-join; splitting the multi-line form by
the separator after stripping the leading separator recovers the sequence
provided no element contains the separator; a string input is first split
on `","`. -/
theorem c8_list_translator_amended (l : List String) (h1 : l ≠ [])
    (h2 : l ≠ ["UNKNOWN"]) :
    list_comma_handler_serialize false (RawVal.vlist l) = some (pyJoin ", " l)
    ∧ list_comma_handler_serialize true (RawVal.vlist l)
        = some (linesep ++ pyJoin linesep l)
    ∧ ((∀ s ∈ l, '\n' ∉ s.data) →
        pySplitChar '\n' (dropLeadingSep (linesep ++ pyJoin linesep l)) = l)
    ∧ (∀ b s, list_comma_handler_serialize b (RawVal.vstr s)
        = list_comma_handler_serialize b (RawVal.vlist (pySplitChar ',' s))) := by
  refine ⟨by simp [list_comma_handler_serialize, h1, h2], by simp [list_comma_handler_serialize, h1, h2], ?_, fun b s => rfl⟩
  intro hnl
  show (List.splitOn '\n' (List.intercalate ['\n'] (l.map String.data))).map String.mk = l
  rw [List.splitOn_intercalate (l.map String.data) '\n'
    (fun ld hld => by
      obtain ⟨s, hs, rfl⟩ := List.mem_map.mp hld
      exact hnl s hs)
    (by simpa using h1)]
  rw [List.map_map]
  exact List.map_id l

/-- C8 witness: the amended statement at `["a", "b", "c"]`, whose compact
form is `"a, b, c"` and whose multi-line form splits back to the list. -/
theorem c8_witness :
    list_comma_handler_serialize false (RawVal.vlist ["a", "b", "c"])
      = some (pyJoin ", " ["a", "b", "c"])
    ∧ pyJoin ", " ["a", "b", "c"] = "a, b, c"
    ∧ pySplitChar '\n' (dropLeadingSep (linesep ++ pyJoin linesep ["a", "b", "c"]))
        = ["a", "b", "c"] :=
  ⟨(c8_list_translator_amended ["a", "b", "c"] (by decide) (by decide)).1,
   by decide,
   (c8_list_translator_amended ["a", "b", "c"] (by decide) (by decide)).2.2.1 (by decide)⟩

/-! ## C2: requirements parsing -/

/-- C2 fails in one detail: on the worked example the stored
`install_requires` value is the line separator followed by `"a"`, not the
bare string `"a"` (the script prefixes the newline-joined block with
`os.linesep`). -/
theorem c2_counterexample :
    lookup2 (mainRun exampleReqEnv []) "options" "install_requires"
      = some ("\n" ++ "a")
    ∧ some ("\n" ++ "a") ≠ some ("a" : String) := by
  decide

/-- C2 amended: parsing is line by line with the current group starting as
`default`; a `[group]` line switches the group, any other non-blank line is
appended stripped; the worked example yields `default = ["a"]`,
`extra1 = ["b"]`, a stored `install_requires` equal to the line separator
followed by `"a"`, `extras_require.extra1 = "b"`, and the
`options.extras_require` section is created. -/
theorem c2_requirements_parsing_amended :
    parseRequires ["a\n", "[extra1]\n", "b\n"] = [("default", ["a"]), ("extra1", ["b"])]
    ∧ lookup2 (mainRun exampleReqEnv []) "options" "install_requires"
        = some (linesep ++ "a")
    ∧ lookup2 (mainRun exampleReqEnv []) "options.extras_require" "extra1" = some "b"
    ∧ hasSection "options.extras_require" (mainRun exampleReqEnv []) = true
    ∧ (∀ sec acc g rest, parseRequiresAux sec acc (g :: rest)
        = if pyStartsWith g "[" then parseRequiresAux (sliceInner (pyStrip g)) acc rest
          else if pyStrip g = "" then parseRequiresAux sec acc rest
          else parseRequiresAux sec (appendGroup sec (pyStrip g) acc) rest)
    ∧ (∀ lines, parseRequires lines = parseRequiresAux "default" [] lines) := by
  exact ⟨by decide, by decide, by decide, by decide, fun sec acc g rest => rfl,
    fun lines => rfl⟩

/-! ## Small-step lemmas about items and sections -/

theorem getKV_cons (k : String) (kv : String × String) (rest : Items) :
    getKV k (kv :: rest) = if kv.1 = k then some kv.2 else getKV k rest := by
  by_cases h : kv.1 = k
  · rw [getKV, List.find?_cons_of_pos _ (by simpa using h), if_pos h]
    rfl
  · rw [getKV, List.find?_cons_of_neg _ (by simpa using h), if_neg h]
    rfl

theorem getKV_setKV_self (k v : String) : ∀ items : Items, getKV k (setKV k v items) = some v := by
  intro items
  induction items with
  | nil =>
    show getKV k [(k, v)] = some v
    rw [getKV_cons, if_pos rfl]
  | cons kv rest ih =>
    by_cases h : kv.1 = k
    · simp only [setKV, if_pos h]
      rw [getKV_cons, if_pos rfl]
    · simp only [setKV, if_neg h]
      rw [getKV_cons, if_neg h, ih]

theorem getKV_setKV_ne (k2 k v : String) (h : k2 ≠ k) :
    ∀ items : Items, getKV k2 (setKV k v items) = getKV k2 items := by
  intro items
  induction items with
  | nil =>
    show getKV k2 [(k, v)] = none
    rw [getKV_cons, if_neg (show ¬(k = k2) from fun he => h he.symm)]
    rfl
  | cons kv rest ih =>
    by_cases hk : kv.1 = k
    · simp only [setKV, if_pos hk]
      rw [getKV_cons, getKV_cons, if_neg (show ¬(k = k2) from fun he => h he.symm),
        if_neg (show ¬(kv.1 = k2) from fun he => h ((hk.symm.trans he).symm))]
    · simp only [setKV, if_neg hk]
      rw [getKV_cons, getKV_cons, ih]

theorem setKV_getKV_same (k v : String) :
    ∀ items : Items, getKV k items = some v → setKV k v items = items := by
  intro items
  induction items with
  | nil => intro h; cases h
  | cons kv rest ih =>
    intro h
    rw [getKV_cons] at h
    by_cases hk : kv.1 = k
    · rw [if_pos hk] at h
      obtain rfl : kv.2 = v := Option.some_injective _ h
      simp only [setKV, if_pos hk]
      rw [show (k, kv.2) = kv from by rw [← hk]]
    · rw [if_neg hk] at h
      simp only [setKV, if_neg hk]
      rw [ih h]

theorem setKV_absorb (k w u : String) :
    ∀ items : Items, setKV k w (setKV k u items) = setKV k w items := by
  intro items
  induction items with
  | nil => simp [setKV]
  | cons kv rest ih =>
    by_cases hk : kv.1 = k
    · simp [setKV, hk]
    · simp [setKV, hk, ih]

theorem getKV_isSome_iff_mem (k : String) :
    ∀ items : Items, (getKV k items).isSome = true ↔ k ∈ items.map Prod.fst := by
  intro items
  induction items with
  | nil => simp [getKV]
  | cons kv rest ih =>
    rw [getKV_cons, List.map_cons]
    by_cases h : kv.1 = k
    · simp [h]
    · rw [if_neg h]
      constructor
      · intro hs
        exact List.mem_cons_of_mem _ (ih.mp hs)
      · intro hm
        rcases List.mem_cons.mp hm with he | hm2
        · exact absurd he.symm h
        · exact ih.mpr hm2

theorem setKV_comm (k2 k : String) (hne : k2 ≠ k) (v2 v : String) :
    ∀ items : Items, k ∈ items.map Prod.fst →
      setKV k2 v2 (setKV k v items) = setKV k v (setKV k2 v2 items) := by
  intro items
  induction items with
  | nil => intro h; cases h
  | cons kv rest ih =>
    intro hmem
    have hne2 : ¬k = k2 := fun he => hne he.symm
    by_cases hk : kv.1 = k
    · have hk2 : ¬kv.1 = k2 := fun he => hne (he.symm.trans hk)
      simp [setKV, hk, hk2, hne2]
    · by_cases hk2 : kv.1 = k2
      · simp [setKV, hk, hk2, hne]
      · have hmem2 : k ∈ rest.map Prod.fst := by
          rcases List.mem_cons.mp hmem with he | hm
          · exact absurd he.symm hk
          · exact hm
        simp [setKV, hk, hk2, ih hmem2]

theorem getSection_cons (s2 : String) (x : String × Items) (xs : ConfigDoc) :
    getSection s2 (x :: xs) = if x.1 = s2 then some x.2 else getSection s2 xs := by
  by_cases h : x.1 = s2
  · rw [getSection, List.find?_cons_of_pos _ (by simpa using h), if_pos h]
    rfl
  · rw [getSection, List.find?_cons_of_neg _ (by simpa using h), if_neg h]
    rfl

theorem hasSection_cons (s2 : String) (x : String × Items) (xs : ConfigDoc) :
    hasSection s2 (x :: xs) = (decide (x.1 = s2) || hasSection s2 xs) := rfl

theorem configSet_cons (s k v : String) (x : String × Items) (xs : ConfigDoc) :
    configSet s k v (x :: xs)
      = (if x.1 = s then (x.1, setKV k v x.2) else x) :: configSet s k v xs := rfl

theorem hasSection_iff_mem (s : String) :
    ∀ d : ConfigDoc, hasSection s d = true ↔ s ∈ d.map Prod.fst := by
  intro d
  induction d with
  | nil => simp [hasSection]
  | cons x xs ih =>
    rw [hasSection_cons, List.map_cons]
    by_cases h : x.1 = s
    · simp [h]
    · constructor
      · intro hb
        rcases Bool.or_eq_true_iff.mp hb with hb1 | hb2
        · exact absurd (of_decide_eq_true hb1) h
        · exact List.mem_cons_of_mem _ (ih.mp hb2)
      · intro hm
        rcases List.mem_cons.mp hm with he | hm2
        · exact absurd he.symm h
        · exact Bool.or_eq_true_iff.mpr (Or.inr (ih.mpr hm2))

theorem getSection_isSome_iff (s : String) :
    ∀ d : ConfigDoc, (getSection s d).isSome = true ↔ hasSection s d = true := by
  intro d
  induction d with
  | nil => simp [getSection, hasSection]
  | cons x xs ih =>
    rw [getSection_cons, hasSection_cons]
    by_cases h : x.1 = s
    · simp [h]
    · rw [if_neg h]
      simp [h, ih]

theorem getSection_configSet (s2 s k v : String) :
    ∀ d : ConfigDoc, getSection s2 (configSet s k v d)
      = if s2 = s then (getSection s2 d).map (setKV k v) else getSection s2 d := by
  intro d
  induction d with
  | nil => by_cases h : s2 = s <;> simp [h, getSection, configSet]
  | cons x xs ih =>
    rw [configSet_cons, getSection_cons, getSection_cons, ih]
    by_cases h1 : x.1 = s
    · by_cases h2 : s2 = s
      · have h3 : x.1 = s2 := h1.trans h2.symm
        simp [h1, h2, h3]
      · have h3 : ¬x.1 = s2 := fun he => h2 (he.symm.trans h1)
        have h4 : ¬s = s2 := fun he => h2 he.symm
        simp [h1, h2, h3, h4]
    · by_cases h2 : s2 = s
      · have h3 : ¬x.1 = s2 := fun he => h1 (he.trans h2)
        simp [h1, h2, h3]
      · by_cases h4 : x.1 = s2 <;> simp [h1, h2, h4]

theorem hasSection_configSet (s2 s k v : String) :
    ∀ d : ConfigDoc, hasSection s2 (configSet s k v d) = hasSection s2 d := by
  intro d
  induction d with
  | nil => rfl
  | cons x xs ih =>
    rw [configSet_cons, hasSection_cons, hasSection_cons, ih]
    by_cases h : x.1 = s <;> simp [h]

theorem configSet_map_fst (s k v : String) :
    ∀ d : ConfigDoc, (configSet s k v d).map Prod.fst = d.map Prod.fst := by
  intro d
  induction d with
  | nil => rfl
  | cons x xs ih =>
    rw [configSet_cons, List.map_cons, List.map_cons, ih]
    by_cases h : x.1 = s <;> simp [h]

theorem configSet_not_has (s k v : String) :
    ∀ d : ConfigDoc, hasSection s d = false → configSet s k v d = d := by
  intro d
  induction d with
  | nil => intro _; rfl
  | cons x xs ih =>
    intro h
    rw [hasSection_cons] at h
    rcases Bool.or_eq_false_iff.mp h with ⟨h1, h2⟩
    rw [configSet_cons, if_neg (of_decide_eq_false h1), ih h2]

theorem configSet_absorb (s k w u : String) :
    ∀ d : ConfigDoc, configSet s k w (configSet s k u d) = configSet s k w d := by
  intro d
  induction d with
  | nil => rfl
  | cons x xs ih =>
    rw [configSet_cons, configSet_cons, configSet_cons, ih]
    by_cases h : x.1 = s <;> simp [h, setKV_absorb]

theorem lookup2_configSet_self (s k v : String) (d : ConfigDoc)
    (h : hasSection s d = true) : lookup2 (configSet s k v d) s k = some v := by
  rw [lookup2, getSection_configSet, if_pos rfl]
  rcases Option.isSome_iff_exists.mp ((getSection_isSome_iff s d).mpr h) with ⟨its, hits⟩
  rw [hits]
  exact getKV_setKV_self k v its

theorem lookup2_configSet_ne (s2 k2 s k v : String) (h : ¬(s2 = s ∧ k2 = k))
    (d : ConfigDoc) : lookup2 (configSet s k v d) s2 k2 = lookup2 d s2 k2 := by
  rw [lookup2, lookup2, getSection_configSet]
  by_cases hs : s2 = s
  · rw [if_pos hs]
    have hk : k2 ≠ k := fun hk => h ⟨hs, hk⟩
    cases hgs : getSection s2 d with
    | none => rfl
    | some its => simp [getKV_setKV_ne k2 k v hk]
  · rw [if_neg hs]

theorem getSection_append (s2 : String) :
    ∀ d e : ConfigDoc, getSection s2 (d ++ e)
      = match getSection s2 d with
        | some its => some its
        | none => getSection s2 e := by
  intro d e
  induction d with
  | nil => rfl
  | cons x xs ih =>
    rw [List.cons_append, getSection_cons, getSection_cons]
    by_cases h : x.1 = s2 <;> simp [h, ih]

theorem addSectionIfAbsent_of_has (s : String) (d : ConfigDoc)
    (h : hasSection s d = true) : addSectionIfAbsent s d = d := by
  rw [addSectionIfAbsent, if_pos h]

theorem hasSection_append (s2 : String) (d e : ConfigDoc) :
    hasSection s2 (d ++ e) = (hasSection s2 d || hasSection s2 e) :=
  List.any_append

theorem hasSection_addSectionIfAbsent_self (s : String) (d : ConfigDoc) :
    hasSection s (addSectionIfAbsent s d) = true := by
  rw [addSectionIfAbsent]
  by_cases h : hasSection s d = true
  · rw [if_pos h]
    exact h
  · rw [if_neg h, hasSection_append]
    simp [hasSection]

theorem hasSection_addSectionIfAbsent_mono (s2 s : String) (d : ConfigDoc)
    (h : hasSection s2 d = true) : hasSection s2 (addSectionIfAbsent s d) = true := by
  rw [addSectionIfAbsent]
  by_cases hh : hasSection s d = true
  · rw [if_pos hh]
    exact h
  · rw [if_neg hh, hasSection_append, h]
    rfl

theorem getSection_addSectionIfAbsent_ne (s2 s : String) (h : s2 ≠ s) (d : ConfigDoc) :
    getSection s2 (addSectionIfAbsent s d) = getSection s2 d := by
  rw [addSectionIfAbsent]
  by_cases hh : hasSection s d = true
  · rw [if_pos hh]
  · rw [if_neg hh, getSection_append]
    cases hgs : getSection s2 d with
    | none =>
      rw [getSection_cons, if_neg (fun he => h he.symm)]
      rfl
    | some its => rfl

theorem lookup2_addSectionIfAbsent (s2 k2 s : String) (d : ConfigDoc) :
    lookup2 (addSectionIfAbsent s d) s2 k2 = lookup2 d s2 k2 := by
  rw [addSectionIfAbsent]
  by_cases hh : hasSection s d = true
  · rw [if_pos hh]
  · rw [if_neg hh, lookup2, lookup2, getSection_append]
    cases hgs : getSection s2 d with
    | none =>
      rw [getSection_cons]
      by_cases he : s = s2
      · rw [if_pos he]
        rfl
      · rw [if_neg he]
        rfl
    | some its => rfl

/-! ## Lemmas about operation lists -/

theorem applyOps_cons (o : Op) (t : List Op) (d : ConfigDoc) :
    applyOps (o :: t) d = applyOps t (applyOp d o) := rfl

theorem applyOps_append (l₁ l₂ : List Op) (d : ConfigDoc) :
    applyOps (l₁ ++ l₂) d = applyOps l₂ (applyOps l₁ d) :=
  List.foldl_append applyOp d l₁ l₂

theorem hasSection_applyOp_mono (s : String) (d : ConfigDoc) (o : Op)
    (h : hasSection s d = true) : hasSection s (applyOp d o) = true := by
  cases o with
  | add s2 => exact hasSection_addSectionIfAbsent_mono s s2 d h
  | set s2 k2 v => rw [applyOp, hasSection_configSet]; exact h

theorem hasSection_applyOps_mono (s : String) (ops : List Op) :
    ∀ d : ConfigDoc, hasSection s d = true → hasSection s (applyOps ops d) = true := by
  induction ops with
  | nil => intro d h; exact h
  | cons o t ih =>
    intro d h
    rw [applyOps_cons]
    exact ih _ (hasSection_applyOp_mono s d o h)

theorem hasSection_applyOps_of_add (s : String) (ops : List Op)
    (h : Op.add s ∈ ops) : ∀ d : ConfigDoc, hasSection s (applyOps ops d) = true := by
  induction ops with
  | nil => cases h
  | cons o t ih =>
    intro d
    rw [applyOps_cons]
    rcases List.mem_cons.mp h with he | hm
    · subst he
      exact hasSection_applyOps_mono s t _ (hasSection_addSectionIfAbsent_self s d)
    · exact ih hm (applyOp d o)

theorem lookup2_applyOp_untouched (s k : String) (d : ConfigDoc) (o : Op)
    (h : touchesB s k o = false) : lookup2 (applyOp d o) s k = lookup2 d s k := by
  cases o with
  | add s2 => exact lookup2_addSectionIfAbsent s k s2 d
  | set s2 k2 v =>
    rw [touchesB] at h
    refine lookup2_configSet_ne s k s2 k2 v ?_ d
    rintro ⟨rfl, rfl⟩
    simp at h

theorem lookup2_applyOps_untouched (s k : String) (ops : List Op)
    (h : ∀ o ∈ ops, touchesB s k o = false) :
    ∀ d : ConfigDoc, lookup2 (applyOps ops d) s k = lookup2 d s k := by
  induction ops with
  | nil => intro d; rfl
  | cons o t ih =>
    intro d
    rw [applyOps_cons, ih fun o2 ho2 => h o2 (List.mem_cons_of_mem _ ho2),
      lookup2_applyOp_untouched s k d o (h o (List.mem_cons_self _ _))]

theorem lookup2_isSome_hasSection (s k : String) (d : ConfigDoc)
    (h : (lookup2 d s k).isSome = true) : hasSection s d = true := by
  rw [lookup2] at h
  cases hgs : getSection s d with
  | none => rw [hgs] at h; cases h
  | some its => exact (getSection_isSome_iff s d).mp (by rw [hgs]; rfl)

theorem lookup2_applyOp_isSome (s k : String) (d : ConfigDoc) (o : Op)
    (h : (lookup2 d s k).isSome = true) : (lookup2 (applyOp d o) s k).isSome = true := by
  cases o with
  | add s2 => rw [applyOp, lookup2_addSectionIfAbsent]; exact h
  | set s2 k2 v =>
    by_cases he : s = s2 ∧ k = k2
    · rw [applyOp, he.1, he.2,
        lookup2_configSet_self s2 k2 v d (he.1 ▸ lookup2_isSome_hasSection s k d h)]
      rfl
    · rw [applyOp, lookup2_configSet_ne s k s2 k2 v he d]
      exact h

theorem lookup2_applyOps_isSome (s k : String) (ops : List Op) :
    ∀ d : ConfigDoc, (lookup2 d s k).isSome = true →
      (lookup2 (applyOps ops d) s k).isSome = true := by
  induction ops with
  | nil => intro d h; exact h
  | cons o t ih =>
    intro d h
    rw [applyOps_cons]
    exact ih _ (lookup2_applyOp_isSome s k d o h)

theorem nodup_applyOp (d : ConfigDoc) (o : Op)
    (h : (d.map Prod.fst).Nodup) : ((applyOp d o).map Prod.fst).Nodup := by
  cases o with
  | add s =>
    rw [applyOp, addSectionIfAbsent]
    by_cases hh : hasSection s d = true
    · rw [if_pos hh]
      exact h
    · rw [if_neg hh, List.map_append]
      rw [List.nodup_append]
      refine ⟨h, List.nodup_singleton s, ?_⟩
      intro a ha hb
      simp at hb
      subst hb
      exact hh ((hasSection_iff_mem a d).mpr ha)
  | set s k v =>
    rw [applyOp, configSet_map_fst]
    exact h

theorem nodup_applyOps (ops : List Op) :
    ∀ d : ConfigDoc, (d.map Prod.fst).Nodup → ((applyOps ops d).map Prod.fst).Nodup := by
  induction ops with
  | nil => intro d h; exact h
  | cons o t ih =>
    intro d h
    rw [applyOps_cons]
    exact ih _ (nodup_applyOp d o h)

theorem configSet_lookup_same (s k v : String) :
    ∀ d : ConfigDoc, (d.map Prod.fst).Nodup → lookup2 d s k = some v →
      configSet s k v d = d := by
  intro d
  induction d with
  | nil => intro _ h; cases h
  | cons x xs ih =>
    intro hnd h
    rw [List.map_cons, List.nodup_cons] at hnd
    rw [lookup2, getSection_cons] at h
    rw [configSet_cons]
    by_cases hx : x.1 = s
    · rw [if_pos hx] at h
      rw [if_pos hx]
      have hset : setKV k v x.2 = x.2 := setKV_getKV_same k v x.2 h
      have hxs : hasSection s xs = false := by
        rw [← Bool.not_eq_true, hasSection_iff_mem]
        intro hm
        exact hnd.1 (hx ▸ hm)
      rw [hset, configSet_not_has s k v xs hxs]
    · rw [if_neg hx] at h
      rw [if_neg hx, ih hnd.2 h]

/-! ## Commutation and overwrite lemmas for the idempotence argument -/

theorem configSet_cons_pos (s k v : String) (x : String × Items) (xs : ConfigDoc)
    (h : x.1 = s) :
    configSet s k v (x :: xs) = (x.1, setKV k v x.2) :: configSet s k v xs := by
  rw [configSet_cons, if_pos h]

theorem configSet_cons_neg (s k v : String) (x : String × Items) (xs : ConfigDoc)
    (h : ¬x.1 = s) :
    configSet s k v (x :: xs) = x :: configSet s k v xs := by
  rw [configSet_cons, if_neg h]

theorem configSet_comm_ne (s2 k2 v2 s k u : String) (hne : s2 ≠ s) :
    ∀ X : ConfigDoc,
      configSet s2 k2 v2 (configSet s k u X) = configSet s k u (configSet s2 k2 v2 X) := by
  intro X
  induction X with
  | nil => rfl
  | cons x xs ih =>
    by_cases h1 : x.1 = s
    · have h2 : ¬x.1 = s2 := fun he => hne (he.symm.trans h1)
      rw [configSet_cons_pos s k u x xs h1,
        configSet_cons_neg s2 k2 v2 x xs h2,
        configSet_cons_neg s2 k2 v2 (x.1, setKV k u x.2) (configSet s k u xs) h2,
        configSet_cons_pos s k u x (configSet s2 k2 v2 xs) h1, ih]
    · by_cases h2 : x.1 = s2
      · rw [configSet_cons_neg s k u x xs h1,
          configSet_cons_pos s2 k2 v2 x xs h2,
          configSet_cons_pos s2 k2 v2 x (configSet s k u xs) h2,
          configSet_cons_neg s k u (x.1, setKV k2 v2 x.2) (configSet s2 k2 v2 xs) h1, ih]
      · rw [configSet_cons_neg s k u x xs h1,
          configSet_cons_neg s2 k2 v2 x xs h2,
          configSet_cons_neg s2 k2 v2 x (configSet s k u xs) h2,
          configSet_cons_neg s k u x (configSet s2 k2 v2 xs) h1, ih]

theorem configSet_comm_same (s k2 v2 k u : String) (hne : k2 ≠ k) :
    ∀ X : ConfigDoc, (X.map Prod.fst).Nodup → (lookup2 X s k).isSome = true →
      configSet s k2 v2 (configSet s k u X) = configSet s k u (configSet s k2 v2 X) := by
  intro X
  induction X with
  | nil => intro _ h; cases h
  | cons x xs ih =>
    intro hnd hkey
    rw [List.map_cons, List.nodup_cons] at hnd
    rw [lookup2, getSection_cons] at hkey
    by_cases h1 : x.1 = s
    · rw [if_pos h1] at hkey
      have hmem : k ∈ x.2.map Prod.fst := (getKV_isSome_iff_mem k x.2).mp hkey
      have hxs : hasSection s xs = false := by
        rw [← Bool.not_eq_true, hasSection_iff_mem]
        intro hm
        exact hnd.1 (h1 ▸ hm)
      rw [configSet_cons_pos s k u x xs h1,
        configSet_cons_pos s k2 v2 x xs h1,
        configSet_cons_pos s k2 v2 (x.1, setKV k u x.2) (configSet s k u xs) h1,
        configSet_cons_pos s k u (x.1, setKV k2 v2 x.2) (configSet s k2 v2 xs) h1,
        configSet_not_has s k u xs hxs, configSet_not_has s k2 v2 xs hxs,
        configSet_not_has s k u xs hxs, setKV_comm k2 k hne v2 u x.2 hmem]
    · rw [if_neg h1] at hkey
      rw [configSet_cons_neg s k u x xs h1,
        configSet_cons_neg s k2 v2 x xs h1,
        configSet_cons_neg s k2 v2 x (configSet s k u xs) h1,
        configSet_cons_neg s k u x (configSet s k2 v2 xs) h1,
        ih hnd.2 hkey]

theorem configSet_append (s k u : String) (X Y : ConfigDoc) :
    configSet s k u (X ++ Y) = configSet s k u X ++ configSet s k u Y :=
  List.map_append _ X Y

theorem applyOp_configSet_comm (s k u : String) (o : Op) (X : ConfigDoc)
    (hnd : (X.map Prod.fst).Nodup) (hkey : (lookup2 X s k).isSome = true)
    (htouch : touchesB s k o = false) :
    applyOp (configSet s k u X) o = configSet s k u (applyOp X o) := by
  cases o with
  | add s2 =>
    rw [applyOp, applyOp, addSectionIfAbsent, addSectionIfAbsent, hasSection_configSet]
    by_cases hh : hasSection s2 X = true
    · rw [if_pos hh, if_pos hh]
    · rw [if_neg hh, if_neg hh]
      have hs2 : s2 ≠ s := by
        intro he
        refine hh ?_
        rw [he]
        exact lookup2_isSome_hasSection s k X hkey
      rw [configSet_append,
        configSet_not_has s k u [(s2, [])] (by simp [hasSection, fun he : s2 = s => hs2 he])]
  | set s2 k2 v =>
    rw [touchesB] at htouch
    rw [applyOp, applyOp]
    by_cases hs : s2 = s
    · subst hs
      have hk : k2 ≠ k := by
        intro he
        subst he
        simp at htouch
      exact configSet_comm_same s2 k2 v k u hk X hnd hkey
    · exact configSet_comm_ne s2 k2 v s k u hs X

/-- Overwrite lemma: when some later write targets `(s, k)`, the value a
pending `configSet` stores at `(s, k)` is irrelevant to the final state. -/
theorem applyOps_overwrite (s k : String) :
    ∀ (t : List Op) (w : String), Op.set s k w ∈ t →
      ∀ (X : ConfigDoc) (u₁ u₂ : String), (X.map Prod.fst).Nodup →
        (lookup2 X s k).isSome = true →
        applyOps t (configSet s k u₁ X) = applyOps t (configSet s k u₂ X) := by
  intro t
  induction t with
  | nil => intro w h; cases h
  | cons o t2 ih =>
    intro w hmem X u₁ u₂ hnd hkey
    rw [applyOps_cons, applyOps_cons]
    by_cases htouch : touchesB s k o = true
    · cases o with
      | add s2 => cases htouch
      | set s2 k2 v =>
        rw [touchesB, Bool.and_eq_true, beq_iff_eq, beq_iff_eq] at htouch
        obtain ⟨rfl, rfl⟩ := htouch
        rw [applyOp, applyOp, configSet_absorb, configSet_absorb]
    · have htouch2 : touchesB s k o = false := Bool.not_eq_true _ ▸ htouch
      have hmem2 : Op.set s k w ∈ t2 := by
        rcases List.mem_cons.mp hmem with he | hm
        · subst he
          rw [touchesB] at htouch2
          simp at htouch2
        · exact hm
      rw [applyOp_configSet_comm s k u₁ o X hnd hkey htouch2,
        applyOp_configSet_comm s k u₂ o X hnd hkey htouch2]
      exact ih w hmem2 (applyOp X o) u₁ u₂ (nodup_applyOp X o hnd)
        (lookup2_applyOp_isSome s k X o hkey)

/-- Re-applying a covered write list is a no-op: the heart of the
idempotence of the merge. -/
theorem applyOps_idem :
    ∀ (ops : List Op) (seen : List String) (d : ConfigDoc),
      covered seen ops → (∀ s ∈ seen, hasSection s d = true) →
      (d.map Prod.fst).Nodup →
      applyOps ops (applyOps ops d) = applyOps ops d := by
  intro ops
  induction ops with
  | nil => intro _ _ _ _ _; rfl
  | cons o t ih =>
    intro seen d hcov hseen hnd
    rw [applyOps_cons, applyOps_cons]
    cases o with
    | add s =>
      have hcov2 : covered (s :: seen) t := hcov
      have hseen2 : ∀ x ∈ s :: seen, hasSection x (applyOp d (Op.add s)) = true := by
        intro x hx
        rcases List.mem_cons.mp hx with he | hm
        · subst he
          exact hasSection_addSectionIfAbsent_self x d
        · exact hasSection_applyOp_mono x d _ (hseen x hm)
      have hnd2 : ((applyOp d (Op.add s)).map Prod.fst).Nodup := nodup_applyOp d _ hnd
      have hE : applyOps t (applyOps t (applyOp d (Op.add s)))
          = applyOps t (applyOp d (Op.add s)) := ih (s :: seen) _ hcov2 hseen2 hnd2
      have hhasE : hasSection s (applyOps t (applyOp d (Op.add s))) = true :=
        hasSection_applyOps_mono s t _ (hasSection_addSectionIfAbsent_self s d)
      rw [show applyOp (applyOps t (applyOp d (Op.add s))) (Op.add s)
          = applyOps t (applyOp d (Op.add s)) from addSectionIfAbsent_of_has _ _ hhasE, hE]
    | set s k v =>
      obtain ⟨hs, hcov2⟩ : s ∈ seen ∧ covered seen t := hcov
      have hhas : hasSection s d = true := hseen s hs
      have hkey1 : lookup2 (applyOp d (Op.set s k v)) s k = some v :=
        lookup2_configSet_self s k v d hhas
      have hseen2 : ∀ x ∈ seen, hasSection x (applyOp d (Op.set s k v)) = true :=
        fun x hx => hasSection_applyOp_mono x d _ (hseen x hx)
      have hnd2 : ((applyOp d (Op.set s k v)).map Prod.fst).Nodup := nodup_applyOp d _ hnd
      have hE : applyOps t (applyOps t (applyOp d (Op.set s k v)))
          = applyOps t (applyOp d (Op.set s k v)) := ih seen _ hcov2 hseen2 hnd2
      have hndE : ((applyOps t (applyOp d (Op.set s k v))).map Prod.fst).Nodup :=
        nodup_applyOps t _ hnd2
      by_cases hset : ∀ o2 ∈ t, touchesB s k o2 = false
      · have hval : lookup2 (applyOps t (applyOp d (Op.set s k v))) s k = some v := by
          rw [lookup2_applyOps_untouched s k t hset _, hkey1]
        rw [show applyOp (applyOps t (applyOp d (Op.set s k v))) (Op.set s k v)
            = applyOps t (applyOp d (Op.set s k v)) from
          configSet_lookup_same s k v _ hndE hval, hE]
      · push_neg at hset
        obtain ⟨o2, ho2mem, ho2pre⟩ := hset
        have ho2 : touchesB s k o2 = true := by simpa using ho2pre
        have hw : ∃ w, Op.set s k w ∈ t := by
          cases o2 with
          | add s3 => cases ho2
          | set s3 k3 w =>
            rw [touchesB, Bool.and_eq_true, beq_iff_eq, beq_iff_eq] at ho2
            obtain ⟨rfl, rfl⟩ := ho2
            exact ⟨w, ho2mem⟩
        obtain ⟨w, hwmem⟩ := hw
        have hkeyE : (lookup2 (applyOps t (applyOp d (Op.set s k v))) s k).isSome = true :=
          lookup2_applyOps_isSome s k t _ (by rw [hkey1]; rfl)
        obtain ⟨w0, hw0⟩ := Option.isSome_iff_exists.mp hkeyE
        show applyOps t (configSet s k v (applyOps t (applyOp d (Op.set s k v))))
            = applyOps t (applyOp d (Op.set s k v))
        rw [applyOps_overwrite s k t w hwmem _ v w0 hndE hkeyE,
          configSet_lookup_same s k w0 _ hndE hw0]
        exact hE

/-! ## The write lists of a run are covered -/

theorem covered_of_sets (sec : String) :
    ∀ (l : List Op) (seen : List String), sec ∈ seen →
      (∀ o ∈ l, ∃ k v, o = Op.set sec k v) →
      covered seen l ∧ seenAfter seen l = seen := by
  intro l
  induction l with
  | nil => intro seen _ _; exact ⟨trivial, rfl⟩
  | cons o t ih =>
    intro seen hmem hshape
    obtain ⟨k, v, rfl⟩ := hshape o (List.mem_cons_self _ _)
    have ht := ih seen hmem fun o2 ho2 => hshape o2 (List.mem_cons_of_mem _ ho2)
    exact ⟨⟨hmem, ht.1⟩, ht.2⟩

theorem covered_append2 :
    ∀ (l₁ l₂ : List Op) (seen : List String), covered seen l₁ →
      covered (seenAfter seen l₁) l₂ → covered seen (l₁ ++ l₂) := by
  intro l₁
  induction l₁ with
  | nil => intro l₂ seen _ h₂; exact h₂
  | cons o t ih =>
    intro l₂ seen h₁ h₂
    cases o with
    | add s => exact ih l₂ (s :: seen) h₁ h₂
    | set s k v => exact ⟨h₁.1, ih l₂ seen h₁.2 h₂⟩

theorem metadataOps_shape (env : Env) :
    ∀ o ∈ metadataOps env, ∃ k v, o = Op.set "metadata" k v := by
  intro o ho
  obtain ⟨kh, _, hmap⟩ := List.mem_filterMap.mp ho
  cases hrun : Handler.run env.readmeExists kh.2 (env.dist kh.1) with
  | none => rw [hrun] at hmap; cases hmap
  | some v =>
    rw [hrun] at hmap
    exact ⟨pyLower kh.2.cfgName, v, (Option.some_injective _ hmap).symm⟩

theorem optionsOps_shape (env : Env) :
    ∀ o ∈ optionsOps env, ∃ k v, o = Op.set "options" k v := by
  intro o ho
  rw [optionsOps] at ho
  rcases List.mem_append.mp ho with h1 | h2
  · rcases List.mem_cons.mp h1 with rfl | h1
    · exact ⟨_, _, rfl⟩
    rcases List.mem_cons.mp h1 with rfl | h1
    · exact ⟨_, _, rfl⟩
    rcases List.mem_cons.mp h1 with rfl | h1
    · exact ⟨_, _, rfl⟩
    · cases h1
  · cases hrp : env.requiresPython with
    | none => rw [hrp] at h2; cases h2
    | some rp =>
      rw [hrp] at h2
      rcases List.mem_cons.mp h2 with rfl | h2
      · exact ⟨_, _, rfl⟩
      · cases h2

theorem requiresOps_shape (lines : List String) :
    ∀ o ∈ requiresOps lines,
      (∃ k v, o = Op.set "options" k v)
      ∨ o = Op.add "options.extras_require"
      ∨ ∃ k v, o = Op.set "options.extras_require" k v := by
  intro o ho
  rw [requiresOps] at ho
  rcases List.mem_cons.mp ho with rfl | ho2
  · exact Or.inl ⟨_, _, rfl⟩
  by_cases hlen : 1 < (getDefaultGroup (parseRequires lines)).2.length
  · rw [if_pos hlen] at ho2
    rcases List.mem_cons.mp ho2 with rfl | ho3
    · exact Or.inr (Or.inl rfl)
    · obtain ⟨g, _, hmap⟩ := List.mem_filterMap.mp ho3
      by_cases hg : g = "default"
      · rw [if_pos hg] at hmap; cases hmap
      · rw [if_neg hg] at hmap
        exact Or.inr (Or.inr ⟨_, _, (Option.some_injective _ hmap).symm⟩)
  · rw [if_neg hlen] at ho2
    cases ho2

theorem entryOps_shape (env : Env) :
    ∀ o ∈ entryOps env,
      o = Op.add "options.entry_points"
      ∨ ∃ k v, o = Op.set "options.entry_points" k v := by
  intro o ho
  rw [entryOps] at ho
  cases hep : env.entryPoints with
  | none => rw [hep] at ho; cases ho
  | some groups =>
    rw [hep] at ho
    rcases List.mem_cons.mp ho with rfl | ho2
    · exact Or.inl rfl
    · obtain ⟨g, _, rfl⟩ := List.mem_map.mp ho2
      exact Or.inr ⟨_, _, rfl⟩

theorem subset_seenAfter :
    ∀ (l : List Op) (seen : List String) (s : String), s ∈ seen → s ∈ seenAfter seen l := by
  intro l
  induction l with
  | nil => intro seen s h; exact h
  | cons o t ih =>
    intro seen s h
    cases o with
    | add s2 => exact ih (s2 :: seen) s (List.mem_cons_of_mem _ h)
    | set s2 k v => exact ih seen s h

theorem covered_requiresOps (lines : List String) (seen : List String)
    (hopt : "options" ∈ seen) : covered seen (requiresOps lines) := by
  refine ⟨hopt, ?_⟩
  by_cases hlen : 1 < (getDefaultGroup (parseRequires lines)).2.length
  · rw [if_pos hlen]
    show covered ("options.extras_require" :: seen) _
    refine (covered_of_sets "options.extras_require" _ _ (List.mem_cons_self _ _) ?_).1
    intro o ho
    obtain ⟨g, _, hmap⟩ := List.mem_filterMap.mp ho
    by_cases hg : g = "default"
    · rw [if_pos hg] at hmap; cases hmap
    · rw [if_neg hg] at hmap
      exact ⟨_, _, (Option.some_injective _ hmap).symm⟩
  · rw [if_neg hlen]
    exact trivial

theorem covered_entryOps (env : Env) (seen : List String) :
    covered seen (entryOps env) ∧ seen ⊆ seenAfter seen (entryOps env) := by
  cases hep : env.entryPoints with
  | none =>
    simp only [entryOps, hep]
    exact ⟨trivial, fun a ha => ha⟩
  | some groups =>
    simp only [entryOps, hep]
    constructor
    · show covered ("options.entry_points" :: seen) _
      refine (covered_of_sets "options.entry_points" _ _ (List.mem_cons_self _ _) ?_).1
      intro o ho
      obtain ⟨g, _, rfl⟩ := List.mem_map.mp ho
      exact ⟨_, _, rfl⟩
    · intro a ha
      exact subset_seenAfter _ ("options.entry_points" :: seen) a (List.mem_cons_of_mem _ ha)

theorem covered_opsOf (env : Env) : covered [] (opsOf env) := by
  unfold opsOf
  show covered ["options", "metadata"] (metadataOps env ++ (optionsOps env ++ (entryOps env ++ _)))
  have hm := covered_of_sets "metadata" (metadataOps env) ["options", "metadata"]
    (by simp) (metadataOps_shape env)
  refine covered_append2 _ _ _ hm.1 ?_
  rw [hm.2]
  have ho := covered_of_sets "options" (optionsOps env) ["options", "metadata"]
    (by simp) (optionsOps_shape env)
  refine covered_append2 _ _ _ ho.1 ?_
  rw [ho.2]
  have he := covered_entryOps env ["options", "metadata"]
  refine covered_append2 _ _ _ he.1 ?_
  cases hreq : env.requiresLines with
  | none => exact trivial
  | some lines =>
    exact covered_requiresOps lines _ (he.2 (by simp))

/-! ## The section sort: permutation, idempotence, commutation -/

theorem sortSections_perm (d : ConfigDoc) : (sortSections d).Perm d :=
  List.perm_insertionSort secLe d

theorem nodup_sortSections (d : ConfigDoc) (h : (d.map Prod.fst).Nodup) :
    ((sortSections d).map Prod.fst).Nodup :=
  (((sortSections_perm d).map Prod.fst).nodup_iff).mpr h

theorem hasSection_sortSections (s : String) (d : ConfigDoc) :
    hasSection s (sortSections d) = hasSection s d := by
  by_cases h : hasSection s d = true
  · rw [h, hasSection_iff_mem]
    exact ((sortSections_perm d).map Prod.fst).mem_iff.mpr ((hasSection_iff_mem s d).mp h)
  · have h2 : hasSection s d = false := by simpa using h
    rw [h2, ← Bool.not_eq_true, hasSection_iff_mem]
    intro hm
    exact h ((hasSection_iff_mem s d).mpr (((sortSections_perm d).map Prod.fst).mem_iff.mp hm))

theorem getSection_perm (s : String) :
    ∀ {d₁ d₂ : ConfigDoc}, d₁.Perm d₂ → (d₁.map Prod.fst).Nodup →
      getSection s d₁ = getSection s d₂ := by
  intro d₁ d₂ hperm
  induction hperm with
  | nil => intro _; rfl
  | cons x h ih =>
    intro hnd
    rw [List.map_cons, List.nodup_cons] at hnd
    rw [getSection_cons, getSection_cons, ih hnd.2]
  | swap x y l =>
    intro hnd
    rw [List.map_cons, List.map_cons, List.nodup_cons, List.nodup_cons] at hnd
    have hxy : y.1 ≠ x.1 := fun he => hnd.1 (he ▸ List.mem_cons_self _ _)
    rw [getSection_cons, getSection_cons, getSection_cons, getSection_cons]
    by_cases hy : y.1 = s
    · have hx : ¬x.1 = s := fun he => hxy (hy.trans he.symm)
      simp [hy, hx]
    · by_cases hx : x.1 = s <;> simp [hy, hx]
  | trans h₁ h₂ ih₁ ih₂ =>
    intro hnd
    exact (ih₁ hnd).trans (ih₂ (((h₁.map Prod.fst).nodup_iff).mp hnd))

theorem getSection_sortSections (s : String) (d : ConfigDoc)
    (h : (d.map Prod.fst).Nodup) : getSection s (sortSections d) = getSection s d :=
  getSection_perm s (sortSections_perm d) (nodup_sortSections d h)

theorem lookup2_sortSections (s k : String) (d : ConfigDoc)
    (h : (d.map Prod.fst).Nodup) : lookup2 (sortSections d) s k = lookup2 d s k := by
  rw [lookup2, lookup2, getSection_sortSections s d h]

theorem sortSections_idem (d : ConfigDoc) :
    sortSections (sortSections d) = sortSections d :=
  List.Sorted.insertionSort_eq (List.sorted_insertionSort secLe d)

theorem sortSections_configSet (s0 k v : String) (d : ConfigDoc) :
    sortSections (configSet s0 k v d) = configSet s0 k v (sortSections d) := by
  have hf : ∀ sec : String × Items,
      ((fun sec : String × Items =>
        if sec.1 = s0 then (sec.1, setKV k v sec.2) else sec) sec).1 = sec.1 := by
    intro sec
    by_cases h : sec.1 = s0 <;> simp [h]
  exact (List.map_insertionSort secLe secLe
    (fun sec => if sec.1 = s0 then (sec.1, setKV k v sec.2) else sec) d
    (fun a _ b _ => by simp only [secLe, hf a, hf b])).symm

theorem applyOps_sortSections_comm :
    ∀ (ops : List Op) (X : ConfigDoc),
      (∀ s2, Op.add s2 ∈ ops → hasSection s2 X = true) →
      applyOps ops (sortSections X) = sortSections (applyOps ops X) := by
  intro ops
  induction ops with
  | nil => intro X _; rfl
  | cons o t ih =>
    intro X hadds
    rw [applyOps_cons, applyOps_cons]
    cases o with
    | add s2 =>
      have hh := hadds s2 (List.mem_cons_self _ _)
      rw [show applyOp (sortSections X) (Op.add s2) = sortSections X from
          addSectionIfAbsent_of_has _ _ (by rw [hasSection_sortSections]; exact hh),
        show applyOp X (Op.add s2) = X from addSectionIfAbsent_of_has _ _ hh]
      exact ih X fun s3 h3 => hadds s3 (List.mem_cons_of_mem _ h3)
    | set s2 k2 v =>
      rw [show applyOp (sortSections X) (Op.set s2 k2 v)
          = configSet s2 k2 v (sortSections X) from rfl,
        ← sortSections_configSet]
      refine ih (configSet s2 k2 v X) ?_
      intro s3 h3
      rw [hasSection_configSet]
      exact hadds s3 (List.mem_cons_of_mem _ h3)

/-! ## C9: idempotence of the run -/

/-- C9: with the same environment (metadata, auxiliary files, README state)
and starting from the output document of a first run, a second run produces
the identical document: every write is deterministic and overwrites in
place, and the section sort is idempotent. -/
theorem c9_run_idempotent (env : Env) (d : ConfigDoc)
    (hnd : (d.map Prod.fst).Nodup) :
    mainRun env (mainRun env d) = mainRun env d := by
  have hA : applyOps (opsOf env) (applyOps (opsOf env) d) = applyOps (opsOf env) d :=
    applyOps_idem (opsOf env) [] d (covered_opsOf env)
      (fun s hs => absurd hs (List.not_mem_nil s)) hnd
  show sortSections (applyOps (opsOf env) (sortSections (applyOps (opsOf env) d)))
      = sortSections (applyOps (opsOf env) d)
  rw [applyOps_sortSections_comm (opsOf env) _
      (fun s2 h2 => hasSection_applyOps_of_add s2 (opsOf env) h2 d),
    hA, sortSections_idem]

/-- C9 witness: a second run over the output of a first run on a concrete
pre-existing document is byte-identical to the first run's output. -/
theorem c9_witness :
    mainRun baseEnv (mainRun baseEnv [("unrelated", [("x", "1")])])
      = mainRun baseEnv [("unrelated", [("x", "1")])] :=
  c9_run_idempotent baseEnv [("unrelated", [("x", "1")])] (by decide)

/-! ## C4: frame property (untouched keys and sections are preserved) -/

theorem getSection_applyOp_unnamed (s : String) (d : ConfigDoc) (o : Op)
    (h : namesSection s o = false) : getSection s (applyOp d o) = getSection s d := by
  cases o with
  | add s2 =>
    rw [namesSection] at h
    exact getSection_addSectionIfAbsent_ne s s2 (Ne.symm (ne_of_beq_false h)) d
  | set s2 k2 v =>
    rw [namesSection] at h
    rw [applyOp, getSection_configSet, if_neg (Ne.symm (ne_of_beq_false h))]

theorem getSection_applyOps_unnamed (s : String) (ops : List Op)
    (h : ∀ o ∈ ops, namesSection s o = false) :
    ∀ d : ConfigDoc, getSection s (applyOps ops d) = getSection s d := by
  induction ops with
  | nil => intro d; rfl
  | cons o t ih =>
    intro d
    rw [applyOps_cons, ih fun o2 ho2 => h o2 (List.mem_cons_of_mem _ ho2),
      getSection_applyOp_unnamed s d o (h o (List.mem_cons_self _ _))]

/-- C4: whatever the pre-existing document contains, a key the run never
writes keeps its value in the output, and a section no operation of the run
names is preserved verbatim; only written sections/keys change. -/
theorem c4_untouched_preserved (env : Env) (d : ConfigDoc) (s k : String)
    (hnd : (d.map Prod.fst).Nodup) :
    (((opsOf env).all fun o => !touchesB s k o) = true →
      lookup2 (mainRun env d) s k = lookup2 d s k)
    ∧ (((opsOf env).all fun o => !namesSection s o) = true →
      getSection s (mainRun env d) = getSection s d) := by
  constructor
  · intro hall
    have h2 : ∀ o ∈ opsOf env, touchesB s k o = false := by
      intro o ho
      simpa using List.all_eq_true.mp hall o ho
    show lookup2 (sortSections (applyOps (opsOf env) d)) s k = lookup2 d s k
    rw [lookup2_sortSections s k _ (nodup_applyOps (opsOf env) d hnd),
      lookup2_applyOps_untouched s k (opsOf env) h2 d]
  · intro hall
    have h2 : ∀ o ∈ opsOf env, namesSection s o = false := by
      intro o ho
      simpa using List.all_eq_true.mp hall o ho
    show getSection s (sortSections (applyOps (opsOf env) d)) = getSection s d
    rw [getSection_sortSections s _ (nodup_applyOps (opsOf env) d hnd),
      getSection_applyOps_unnamed s (opsOf env) h2 d]

/-- C4 witness: a pre-existing `[unrelated]` section with `x = 1` is
preserved verbatim through a run. -/
theorem c4_witness :
    lookup2 (mainRun baseEnv [("unrelated", [("x", "1")])]) "unrelated" "x"
      = lookup2 [("unrelated", [("x", "1")])] "unrelated" "x"
    ∧ getSection "unrelated" (mainRun baseEnv [("unrelated", [("x", "1")])])
      = getSection "unrelated" [("unrelated", [("x", "1")])] := by
  have h := c4_untouched_preserved baseEnv [("unrelated", [("x", "1")])]
    "unrelated" "x" (by decide)
  exact ⟨h.1 (by decide), h.2 (by decide)⟩

/-! ## Where a write lands: the stored value of a key set by the run -/

theorem lookup2_applyOps_set_head (s k v : String) (rest : List Op) (D : ConfigDoc)
    (hhas : hasSection s D = true) (hrest : ∀ o ∈ rest, touchesB s k o = false) :
    lookup2 (applyOps (Op.set s k v :: rest) D) s k = some v := by
  rw [applyOps_cons, lookup2_applyOps_untouched s k rest hrest]
  exact lookup2_configSet_self s k v D hhas

theorem filterMap_split (f : α → Option β) (l₁ l₂ : List α) (a : α) (b : β)
    (h : f a = some b) :
    List.filterMap f (l₁ ++ a :: l₂)
      = List.filterMap f l₁ ++ (b :: List.filterMap f l₂) := by
  rw [List.filterMap_append, List.filterMap_cons, h]

theorem lookup2_applyOps_mem_set (l₁ l₂ : List Op) (s k v : String) (D : ConfigDoc)
    (hhas : hasSection s (applyOps l₁ D) = true)
    (hrest : ∀ o ∈ l₂, touchesB s k o = false) :
    lookup2 (applyOps (l₁ ++ (Op.set s k v :: l₂)) D) s k = some v := by
  rw [applyOps_append]
  exact lookup2_applyOps_set_head s k v l₂ _ hhas hrest

/-! ## C3: the requirements merge -/

/-- C3: whenever `requires.txt` exists, `options.install_requires` is set to
the line-separator-prefixed newline-join of the `default` group (an empty
block when that group is empty); whenever more than one group exists the
`options.extras_require` section is ensured, and each non-default group, in
sorted order by group name and joined by `"; "`, becomes one key of it (with
the config writer's option-name lowering; group names with distinct lowered
forms each keep their own key); with groups `default, zeta, alpha` the
`alpha` key is emitted before the `zeta` key. -/
theorem c3_requirements_merge (env : Env) (d : ConfigDoc) (lines : List String)
    (hnd : (d.map Prod.fst).Nodup) (hreq : env.requiresLines = some lines) :
    (lookup2 (mainRun env d) "options" "install_requires"
        = some (linesep ++ pyJoin linesep (getDefaultGroup (parseRequires lines)).1))
    ∧ (1 < (getDefaultGroup (parseRequires lines)).2.length →
        hasSection "options.extras_require" (mainRun env d) = true)
    ∧ (getSection "options.extras_require" (mainRun sortedExtrasEnv [])
        = some [("alpha", "al1"), ("zeta", "z1")])
    ∧ (∀ g ∈ (getDefaultGroup (parseRequires lines)).2, g.1 ≠ "default" →
        1 < (getDefaultGroup (parseRequires lines)).2.length →
        ((getDefaultGroup (parseRequires lines)).2.map fun p => pyLower p.1).Nodup →
        lookup2 (mainRun env d) "options.extras_require" (pyLower g.1)
          = some (pyJoin "; " (groupReqs g.1 (getDefaultGroup (parseRequires lines)).2))) := by
  have hndA : ((applyOps (opsOf env) d).map Prod.fst).Nodup := nodup_applyOps _ d hnd
  have hops : opsOf env
      = [Op.add "metadata", Op.add "options"] ++
          (metadataOps env ++ (optionsOps env ++ (entryOps env ++ requiresOps lines))) := by
    simp only [opsOf, hreq]
  have hkeylow : pyLower "install_requires" = "install_requires" := by decide
  have hopts : hasSection "options"
      (applyOps [Op.add "metadata", Op.add "options"] d) = true := by
    show hasSection "options" (addSectionIfAbsent "options" (addSectionIfAbsent "metadata" d))
      = true
    exact hasSection_addSectionIfAbsent_self _ _
  refine ⟨?_, ?_, by decide, ?_⟩
  · show lookup2 (sortSections (applyOps (opsOf env) d)) _ _ = _
    rw [lookup2_sortSections _ _ _ hndA, hops, applyOps_append, applyOps_append,
      applyOps_append, applyOps_append]
    simp only [requiresOps, opSet]
    rw [hkeylow]
    refine lookup2_applyOps_set_head "options" "install_requires" _ _ _ ?_ ?_
    · exact hasSection_applyOps_mono _ _ _
        (hasSection_applyOps_mono _ _ _ (hasSection_applyOps_mono _ _ _ hopts))
    · intro o ho
      by_cases hlen : 1 < (getDefaultGroup (parseRequires lines)).2.length
      · rw [if_pos hlen] at ho
        rcases List.mem_cons.mp ho with rfl | ho2
        · rfl
        · obtain ⟨g, _, hmap⟩ := List.mem_filterMap.mp ho2
          by_cases hg : g = "default"
          · rw [if_pos hg] at hmap
            cases hmap
          · rw [if_neg hg] at hmap
            obtain rfl := Option.some_injective _ hmap
            have hb : (("options.extras_require" : String) == "options") = false := by decide
            simp [touchesB, hb]
      · rw [if_neg hlen] at ho
        cases ho
  · intro hlen
    have hmem : Op.add "options.extras_require" ∈ opsOf env := by
      rw [hops]
      refine List.mem_append.mpr (Or.inr ?_)
      refine List.mem_append.mpr (Or.inr ?_)
      refine List.mem_append.mpr (Or.inr ?_)
      refine List.mem_append.mpr (Or.inr ?_)
      show Op.add "options.extras_require" ∈ requiresOps lines
      refine List.mem_cons_of_mem _ ?_
      rw [if_pos hlen]
      exact List.mem_cons_self _ _
    show hasSection _ (sortSections (applyOps (opsOf env) d)) = true
    rw [hasSection_sortSections]
    exact hasSection_applyOps_of_add _ _ hmem d
  · intro g hg hgdef hlen hlow
    have hgs : g.1 ∈ List.insertionSort pyLe
        ((getDefaultGroup (parseRequires lines)).2.map Prod.fst) :=
      (List.mem_insertionSort pyLe).mpr (List.mem_map_of_mem _ hg)
    obtain ⟨n₁, n₂, hsplit⟩ := List.append_of_mem hgs
    have hlow2 : ((n₁ ++ g.1 :: n₂).map pyLower).Nodup := by
      have hperm2 : (n₁ ++ g.1 :: n₂).Perm
          ((getDefaultGroup (parseRequires lines)).2.map Prod.fst) := by
        rw [← hsplit]
        exact List.perm_insertionSort pyLe _
      have hn : (((getDefaultGroup (parseRequires lines)).2.map Prod.fst).map pyLower).Nodup := by
        rw [List.map_map]
        exact hlow
      exact ((hperm2.map pyLower).nodup_iff).mpr hn
    have hnotin : pyLower g.1 ∉ n₂.map pyLower := by
      rw [List.map_append, List.map_cons] at hlow2
      have hmid := List.nodup_middle.mp hlow2
      rw [List.nodup_cons] at hmid
      intro hm
      exact hmid.1 (List.mem_append.mpr (Or.inr hm))
    have hfg : (fun g2 => if g2 = "default" then none
        else some (Op.set "options.extras_require" (pyLower g2)
          (pyJoin "; " (groupReqs g2 (getDefaultGroup (parseRequires lines)).2)))) g.1
        = some (Op.set "options.extras_require" (pyLower g.1)
          (pyJoin "; " (groupReqs g.1 (getDefaultGroup (parseRequires lines)).2))) := by
      simp only [if_neg hgdef]
    show lookup2 (sortSections (applyOps (opsOf env) d)) _ _ = _
    rw [lookup2_sortSections _ _ _ hndA, hops, applyOps_append, applyOps_append,
      applyOps_append, applyOps_append]
    simp only [requiresOps, opSet]
    rw [if_pos hlen, hsplit, filterMap_split _ n₁ n₂ g.1 _ hfg, applyOps_cons, applyOps_cons]
    refine lookup2_applyOps_mem_set _ _ "options.extras_require" (pyLower g.1) _ _ ?_ ?_
    · exact hasSection_applyOps_mono _ _ _ (hasSection_addSectionIfAbsent_self _ _)
    · intro o ho
      obtain ⟨g2, hg2, hmap⟩ := List.mem_filterMap.mp ho
      by_cases hgd : g2 = "default"
      · rw [if_pos hgd] at hmap
        cases hmap
      · rw [if_neg hgd] at hmap
        obtain rfl := Option.some_injective _ hmap
        have hne2 : (pyLower g2 == pyLower g.1) = false := by
          refine beq_eq_false_iff_ne.mpr ?_
          intro he
          exact hnotin (he ▸ List.mem_map_of_mem pyLower hg2)
        simp [touchesB, hne2]

/-- C3 witness: on the `default, zeta, alpha` example the stored
`install_requires` value is the separator-prefixed newline-join of the
default group. -/
theorem c3_witness :
    lookup2 (mainRun sortedExtrasEnv []) "options" "install_requires"
      = some (linesep ++ pyJoin linesep
          (getDefaultGroup (parseRequires
            ["a\n", "[zeta]\n", "z1\n", "[alpha]\n", "al1\n"])).1) :=
  (c3_requirements_merge sortedExtrasEnv []
    ["a\n", "[zeta]\n", "z1\n", "[alpha]\n", "al1\n"] (by decide) rfl).1

/-! ## C7: entry points -/

/-- C7 fails as stated: `ConfigParser` lowercases option names, so a group
`Grp` with an item `Name = v` is stored under the key `grp` with the item
name lowercased to `name`; names are not passed through unchanged. -/
theorem c7_counterexample :
    lookup2 (mainRun entryEnv []) "options.entry_points" "grp"
      = some (linesep ++ "name = v")
    ∧ lookup2 (mainRun entryEnv []) "options.entry_points" "Grp" = none
    ∧ ("grp" : String) ≠ "Grp" := by
  decide

/-- C7 amended: whenever `entry_points.txt` exists, the
`options.entry_points` section is ensured and every group of the file whose
lowered name is unambiguous gets one key — the group name lowercased by the
config writer — whose value is the separator-prefixed block of
`name = value` lines built from the group's items in source order, with each
entry-point name lowercased by the config read; only the value formatting
and this case normalization differ from the source file. -/
theorem c7_entry_points_amended (env : Env) (d : ConfigDoc)
    (groups : List (String × List (String × String)))
    (hnd : (d.map Prod.fst).Nodup) (hep : env.entryPoints = some groups)
    (hlow : (groups.map fun g => pyLower g.1).Nodup) :
    hasSection "options.entry_points" (mainRun env d) = true
    ∧ ∀ g ∈ groups,
        lookup2 (mainRun env d) "options.entry_points" (pyLower g.1)
          = some (linesep ++ pyJoin linesep
              (g.2.map fun it => pyLower it.1 ++ " = " ++ it.2)) := by
  have hndA : ((applyOps (opsOf env) d).map Prod.fst).Nodup := nodup_applyOps _ d hnd
  constructor
  · have hmem : Op.add "options.entry_points" ∈ opsOf env := by
      simp only [opsOf, entryOps, hep]
      refine List.mem_append.mpr (Or.inr ?_)
      refine List.mem_append.mpr (Or.inr ?_)
      refine List.mem_append.mpr (Or.inr ?_)
      refine List.mem_append.mpr (Or.inl ?_)
      exact List.mem_cons_self _ _
    show hasSection _ (sortSections (applyOps (opsOf env) d)) = true
    rw [hasSection_sortSections]
    exact hasSection_applyOps_of_add _ _ hmem d
  · intro g hg
    obtain ⟨gl₁, gl₂, hgsplit⟩ := List.append_of_mem hg
    show lookup2 (sortSections (applyOps (opsOf env) d)) _ _ = _
    rw [lookup2_sortSections _ _ _ hndA]
    simp only [opsOf, entryOps, hep, opSet]
    rw [applyOps_append, applyOps_append, applyOps_append, hgsplit, List.map_append,
      List.map_cons, List.cons_append, List.append_assoc, List.cons_append, applyOps_cons]
    refine lookup2_applyOps_mem_set _ _ "options.entry_points" (pyLower g.1) _ _ ?_ ?_
    · exact hasSection_applyOps_mono _ _ _ (hasSection_addSectionIfAbsent_self _ _)
    · intro o ho
      rcases List.mem_append.mp ho with h1 | h2
      · obtain ⟨g2, hg2, rfl⟩ := List.mem_map.mp h1
        have hlow2 : ((gl₁ ++ g :: gl₂).map fun p => pyLower p.1).Nodup := hgsplit ▸ hlow
        rw [List.map_append, List.map_cons] at hlow2
        have hmid := List.nodup_middle.mp hlow2
        rw [List.nodup_cons] at hmid
        have hne2 : (pyLower g2.1 == pyLower g.1) = false := by
          refine beq_eq_false_iff_ne.mpr ?_
          intro he
          exact hmid.1 (List.mem_append.mpr
            (Or.inr (he ▸ List.mem_map_of_mem _ hg2)))
        simp [touchesB, hne2]
      · cases hreqv : env.requiresLines with
        | none => rw [hreqv] at h2; cases h2
        | some lines =>
          rw [hreqv] at h2
          rcases requiresOps_shape lines o h2 with ⟨k2, v2, rfl⟩ | rfl | ⟨k2, v2, rfl⟩
          · have hb : (("options" : String) == "options.entry_points") = false := by decide
            simp [touchesB, hb]
          · rfl
          · have hb : (("options.extras_require" : String) == "options.entry_points") = false := by
              decide
            simp [touchesB, hb]

/-- C7 witness: the amended statement on the concrete `Grp`/`Name = v`
entry-points file. -/
theorem c7_witness :
    hasSection "options.entry_points" (mainRun entryEnv []) = true
    ∧ lookup2 (mainRun entryEnv []) "options.entry_points" (pyLower "Grp")
        = some (linesep ++ pyJoin linesep
            ([("Name", "v")].map fun it => pyLower it.1 ++ " = " ++ it.2)) := by
  have h := c7_entry_points_amended entryEnv [] [("Grp", [("Name", "v")])]
    (by decide) rfl (by decide)
  exact ⟨h.1, h.2 ("Grp", [("Name", "v")]) (by decide)⟩

end GenerateSetupCfg
